import Mathlib

/-!
Verification of the concurrent link-integrity checker implemented in
`scripts/check_urls.py`.  Python strings are modelled as `List Char`,
Python dicts (insertion ordered) as association lists, Python sets as
duplicate-free lists in insertion order.  All definitions are translated
from the source; definitions whose doc comment says otherwise model a
sentence of the specification for comparison.
-/

namespace CheckUrls

/-- String literal helper: the character list of a Lean string literal. -/
def s2l (s : String) : List Char := s.data

/-- ASCII lowercase of one character, as Python `str.lower` acts on ASCII. -/
def lowerChar (c : Char) : Char :=
  if 'A' ≤ c && c ≤ 'Z' then Char.ofNat (c.toNat + 32) else c

/-- Python `str.lower` on ASCII text. -/
def toLowerStr (s : List Char) : List Char := s.map lowerChar

/-- Python `str.strip` / regex `\s` whitespace over ASCII. -/
def isSpaceChar (c : Char) : Bool :=
  c = ' ' || c = Char.ofNat 9 || c = Char.ofNat 10 || c = Char.ofNat 13 ||
  c = Char.ofNat 11 || c = Char.ofNat 12

/-- Python `needle in hay` substring containment. -/
def containsSub (hay needle : List Char) : Bool :=
  (List.range (hay.length + 1)).any (fun i => needle.isPrefixOf (hay.drop i))

/-- Python `str.strip`. -/
def stripStr (s : List Char) : List Char :=
  ((s.dropWhile isSpaceChar).reverse.dropWhile isSpaceChar).reverse

/-- Python `str.split(',')`. -/
def splitComma : List Char → List (List Char)
  | [] => [[]]
  | c :: rest =>
    if c = ',' then [] :: splitComma rest
    else
      match splitComma rest with
      | [] => [[c]]
      | g :: gs => (c :: g) :: gs

/-- The characters after the first occurrence of `pat`, as Python
`s.split(pat, 1)[1]` when `pat` occurs in `s` (and `[]` when it does not). -/
def afterFirst : List Char → List Char → List Char
  | [], _ => []
  | c :: rest, pat =>
    if pat.isPrefixOf (c :: rest) then (c :: rest).drop pat.length
    else afterFirst rest pat

/-- `URLChecker.get_domain`: strip everything up to the first `://`, take the
segment before the first `/`, then before the first `:`, and lowercase. -/
def get_domain (url : List Char) : List Char :=
  let u := if containsSub url (s2l "://") then afterFirst url (s2l "://") else url
  let d := u.takeWhile (fun c => c ≠ '/')
  let d2 := d.takeWhile (fun c => c ≠ ':')
  toLowerStr d2

/-- The configuration fields the checker reads (`Config` in the source). -/
structure Config where
  replacements : List (List Char × List Char)
  skip_domains : List (List Char)
  skip_urls : List (List Char)
  skip_files : List (List Char)
  markdown_patterns : List (List Char)
  html_patterns : List (List Char)
  file_patterns : List (List Char)
deriving Repr

/-- `URLChecker.is_valid_url`: the validity filter, with the source's
early-return structure. -/
def is_valid_url (cfg : Config) (url : List Char) : Bool :=
  if !((s2l "http://").isPrefixOf url || (s2l "https://").isPrefixOf url) then
    false
  else if [s2l "localhost", s2l "127.0.0.1", s2l "0.0.0.0"].any
      (fun p => containsSub (toLowerStr url) p) then
    false
  else if [s2l "example.com", s2l "example.org"].any
      (fun d => containsSub (toLowerStr url) d) then
    false
  else if (!cfg.skip_domains.isEmpty) && cfg.skip_domains.any
      (fun skip => containsSub (get_domain url) skip) then
    false
  else if (!cfg.skip_urls.isEmpty) && cfg.skip_urls.any
      (fun sk => containsSub url sk) then
    false
  else
    true

/-- Python `s.replace(pat, to)` for empty `pat`: `to` is inserted at every
position of `s`, including both ends. -/
def emptyRepl : List Char → List Char → List Char
  | [], tgt => tgt
  | c :: rest, tgt => tgt ++ c :: emptyRepl rest tgt

/-- Python `s.replace(pat, to)` for nonempty `pat`: leftmost, non-overlapping,
the inserted `to` is not rescanned.  Fuel-driven so that it evaluates by
kernel reduction; `fuel = s.length` always suffices. -/
def replAux : Nat → List Char → List Char → List Char → List Char
  | 0, s, _, _ => s
  | _ + 1, [], _, _ => []
  | fuel + 1, c :: rest, pat, tgt =>
    if pat.isPrefixOf (c :: rest) then
      tgt ++ replAux fuel ((c :: rest).drop pat.length) pat tgt
    else
      c :: replAux fuel rest pat tgt

/-- Python `s.replace(pat, to)`. -/
def pyReplace (s pat tgt : List Char) : List Char :=
  if pat.isEmpty then emptyRepl s tgt else replAux s.length s pat tgt

/-- `URLChecker.apply_replacements`: every configured (from, to) pair applied
once, in configuration order. -/
def apply_replacements (repls : List (List Char × List Char)) (url : List Char) :
    List Char :=
  repls.foldl (fun u ft => pyReplace u ft.1 ft.2) url

/-! ### URL extraction (`URLExtractor`)

The three markdown regexes and the two HTML regexes of the source are
deterministic (their character classes are complements of the literals that
follow them), so each is modelled as an anchored matcher returning the
captured text and the length of the whole match, driven by a generic
non-overlapping left-to-right scanner, exactly `re.findall`'s strategy. -/

/-- Anchored match of `\[(?:[^\]]*)\]\(([^)]+)\)`: capture and match length. -/
def matchInline (s : List Char) : Option (List Char × Nat) :=
  match s with
  | [] => none
  | c :: rest =>
    if c = '[' then
      let lab := rest.takeWhile (fun x => x ≠ ']')
      match rest.drop lab.length with
      | b :: p :: rest2 =>
        if b = ']' && p = '(' then
          let cap := rest2.takeWhile (fun x => x ≠ ')')
          if cap.isEmpty then none
          else
            match rest2.drop cap.length with
            | r :: _ =>
              if r = ')' then some (cap, 1 + lab.length + 2 + cap.length + 1)
              else none
            | [] => none
        else none
      | _ => none
    else none

/-- The delimiter class of the bare-URL regex:
whitespace and `) < > [ ] { } " ' , ;`. -/
def isBareStop (c : Char) : Bool :=
  isSpaceChar c || c = ')' || c = '<' || c = '>' || c = '[' || c = ']' ||
  c = Char.ofNat 123 || c = Char.ofNat 125 || c = Char.ofNat 34 ||
  c = Char.ofNat 39 || c = ',' || c = ';'

/-- Anchored match of the bare-URL regex
`(?:https?://[^\s\)<>\[\]{}"\',;]+)`. -/
def matchBare (s : List Char) : Option (List Char × Nat) :=
  let tryPre := fun (pre : List Char) =>
    if pre.isPrefixOf s then
      let run := (s.drop pre.length).takeWhile (fun c => !isBareStop c)
      if run.isEmpty then none
      else some (pre ++ run, pre.length + run.length)
    else none
  match tryPre (s2l "https://") with
  | some r => some r
  | none => tryPre (s2l "http://")

/-- Anchored match of the reference-link regex `\[(?:[^\]]+)\]:\s*(\S+)`
(the `^` anchor is enforced by the scanner `refsAux`). -/
def matchRef (s : List Char) : Option (List Char × Nat) :=
  match s with
  | [] => none
  | c :: rest =>
    if c = '[' then
      let lab := rest.takeWhile (fun x => x ≠ ']')
      if lab.isEmpty then none
      else
        match rest.drop lab.length with
        | b :: k :: rest2 =>
          if b = ']' && k = ':' then
            let ws := rest2.takeWhile isSpaceChar
            let cap := (rest2.drop ws.length).takeWhile (fun x => !isSpaceChar x)
            if cap.isEmpty then none
            else some (cap, 1 + lab.length + 2 + ws.length + cap.length)
          else none
        | _ => none
    else none

/-- `re.findall`: scan left to right, emit each match's capture, resume after
the match (non-overlapping).  Fuel-driven; `fuel = s.length` suffices since
every step consumes at least one character. -/
def scanAllAux (f : List Char → Option (List Char × Nat)) :
    Nat → List Char → List (List Char)
  | 0, _ => []
  | _ + 1, [] => []
  | fuel + 1, c :: rest =>
    match f (c :: rest) with
    | some (cap, n) => cap :: scanAllAux f fuel ((c :: rest).drop (max n 1))
    | none => scanAllAux f fuel rest

/-- All captures of an anchored matcher over a string, `re.findall` style. -/
def scanAll (f : List Char → Option (List Char × Nat)) (s : List Char) :
    List (List Char) :=
  scanAllAux f s.length s

/-- `re.findall` under `re.MULTILINE` for the `^`-anchored reference-link
regex: a match may only start at the string start or right after a newline. -/
def refsAux : Nat → Bool → List Char → List (List Char)
  | 0, _, _ => []
  | _ + 1, _, [] => []
  | fuel + 1, atStart, c :: rest =>
    if atStart then
      match matchRef (c :: rest) with
      | some (cap, n) =>
        let m := max n 1
        cap :: refsAux fuel
          ((((c :: rest).take m).getLastD 'x') == Char.ofNat 10)
          ((c :: rest).drop m)
      | none => refsAux fuel (c == Char.ofNat 10) rest
    else refsAux fuel (c == Char.ofNat 10) rest

/-- All reference-link captures of a string. -/
def findRefs (s : List Char) : List (List Char) := refsAux s.length true s

/-- `URLExtractor.extract_from_markdown`: inline links, then reference
links, then bare URLs. -/
def extract_from_markdown (content : List Char) : List (List Char) :=
  scanAll matchInline content ++ findRefs content ++ scanAll matchBare content

/-- Case-insensitive literal prefix (the HTML regexes carry
`re.IGNORECASE`). -/
def ciPrefix (pat s : List Char) : Bool :=
  pat.isPrefixOf (toLowerStr (s.take pat.length))

/-- The scheme part `https?://` of the HTML regexes, case-insensitively, as
it stands in the text (a capture keeps the original case). -/
def ciScheme (s : List Char) : Option (List Char) :=
  if ciPrefix (s2l "https://") s then some (s.take 8)
  else if ciPrefix (s2l "http://") s then some (s.take 7)
  else none

/-- Anchored match of `href=["'](https?://[^"']+)["']` (and the same with
`src=`), case-insensitive. -/
def matchAttr (attrName : List Char) (s : List Char) : Option (List Char × Nat) :=
  if ciPrefix attrName s then
    match s.drop attrName.length with
    | [] => none
    | q :: rest =>
      if q = Char.ofNat 34 || q = Char.ofNat 39 then
        match ciScheme rest with
        | none => none
        | some scheme =>
          let body := (rest.drop scheme.length).takeWhile
            (fun c => c ≠ Char.ofNat 34 && c ≠ Char.ofNat 39)
          if body.isEmpty then none
          else
            match (rest.drop scheme.length).drop body.length with
            | q2 :: _ =>
              if q2 = Char.ofNat 34 || q2 = Char.ofNat 39 then
                some (scheme ++ body,
                  attrName.length + 1 + scheme.length + body.length + 1)
              else none
            | [] => none
      else none
  else none

/-- `URLExtractor.extract_from_html`: `href` captures then `src` captures. -/
def extract_from_html (content : List Char) : List (List Char) :=
  scanAll (matchAttr (s2l "href=")) content ++
  scanAll (matchAttr (s2l "src=")) content

/-! ### Extraction over scanned files (`URLCheckRunner.extract_all_urls`) -/

/-- The file category assigned by the scanner. -/
inductive FileType where
  | markdown
  | html
  | file
deriving Repr, DecidableEq

/-- A scanned file: its path, decoded content and category. -/
structure ScannedFile where
  path : List Char
  content : List Char
  ftype : FileType
deriving Repr

/-- The raw URLs the runner extracts from one file, by category. -/
def extractFile (f : ScannedFile) : List (List Char) :=
  match f.ftype with
  | .markdown => extract_from_markdown f.content
  | .html => extract_from_html f.content
  | .file => extract_from_markdown f.content ++ extract_from_html f.content

/-- The state `extract_all_urls` builds: the canonical URL set (`all_urls`,
a Python set modelled as a duplicate-free list in insertion order) and the
provenance map (`url_sources`, a dict modelled as an association list in
insertion order). -/
structure ExtractState where
  all_urls : List (List Char)
  url_sources : List ((List Char) × List (List Char))
deriving Repr

/-- `set.add`. -/
def addURL (urls : List (List Char)) (u : List Char) : List (List Char) :=
  if u ∈ urls then urls else urls ++ [u]

/-- Appending one source path to a URL's provenance list
(`url_sources.setdefault`-then-append of the source). -/
def addSource : List ((List Char) × List (List Char)) → List Char → List Char →
    List ((List Char) × List (List Char))
  | [], u, p => [(u, [p])]
  | (k, ps) :: rest, u, p =>
    if k = u then (k, ps ++ [p]) :: rest else (k, ps) :: addSource rest u p

/-- Provenance of one canonical URL in the state (empty when absent). -/
def lookupSrc : List ((List Char) × List (List Char)) → List Char →
    List (List Char)
  | [], _ => []
  | (k, ps) :: rest, v => if k = v then ps else lookupSrc rest v

/-- The body of the `for url in urls` loop of `extract_all_urls`: filter on
the original URL, then apply replacements, then record canonical URL and
provenance. -/
def processURL (cfg : Config) (p : List Char) (st : ExtractState)
    (u : List Char) : ExtractState :=
  if is_valid_url cfg u then
    let r := apply_replacements cfg.replacements u
    { all_urls := addURL st.all_urls r, url_sources := addSource st.url_sources r p }
  else st

/-- One file's contribution to the extraction state. -/
def processFile (cfg : Config) (st : ExtractState) (f : ScannedFile) :
    ExtractState :=
  (extractFile f).foldl (processURL cfg f.path) st

/-- `URLCheckRunner.extract_all_urls`. -/
def extract_all_urls (cfg : Config) (files : List ScannedFile) : ExtractState :=
  files.foldl (processFile cfg) { all_urls := [], url_sources := [] }

/-! ### Configuration resolution (`Config.__init__` helpers)

Environment and command-line inputs are `Option (List Char)`: `none` models
an absent variable/argument.  Python dict insertion-order update is
`dictInsert`/`dictUpdate`; Python set update is `setAdd`/`setAddAll`. -/

/-- Python `dict[k] = v`: replace in place, or append a new key. -/
def dictInsert (m : List (List Char × List Char)) (k v : List Char) :
    List (List Char × List Char) :=
  match m with
  | [] => [(k, v)]
  | (k2, v2) :: rest =>
    if k2 = k then (k, v) :: rest else (k2, v2) :: dictInsert rest k v

/-- Python `dict.update`. -/
def dictUpdate (m upd : List (List Char × List Char)) :
    List (List Char × List Char) :=
  upd.foldl (fun acc kv => dictInsert acc kv.1 kv.2) m

/-- Python `set.add` for insertion-ordered string sets. -/
def setAdd (s : List (List Char)) (x : List Char) : List (List Char) :=
  if x ∈ s then s else s ++ [x]

/-- Python `set.update`. -/
def setAddAll (s : List (List Char)) (xs : List (List Char)) :
    List (List Char) :=
  xs.foldl setAdd s

/-- The entries a comma-separated skip list contributes:
`x.strip() for x in s.split(',') if x.strip()`, lowercased when `low`. -/
def csvEntries (low : Bool) (s : List Char) : List (List Char) :=
  (splitComma s).filterMap (fun d =>
    let t := stripStr d
    if t.isEmpty then none else some (if low then toLowerStr t else t))

/-- `Config._parse_patterns`: built-in default, replaced wholesale by a
nonempty (stripped) environment value, replaced wholesale by a truthy
command-line value. -/
def parse_patterns (dflt : List (List Char)) (envv argv : Option (List Char)) :
    List (List Char) :=
  let patterns := dflt
  let envp := stripStr (envv.getD [])
  let patterns := if !envp.isEmpty then csvEntries false envp else patterns
  match argv with
  | none => patterns
  | some a => if !a.isEmpty then csvEntries false a else patterns

/-- The three pattern lists as `Config.__init__` builds them. -/
def markdown_patterns (envv argv : Option (List Char)) : List (List Char) :=
  parse_patterns [s2l ".md", s2l ".markdown"] envv argv

/-- Default `.html,.htm`, same resolution. -/
def html_patterns (envv argv : Option (List Char)) : List (List Char) :=
  parse_patterns [s2l ".html", s2l ".htm"] envv argv

/-- Default empty, same resolution. -/
def file_patterns (envv argv : Option (List Char)) : List (List Char) :=
  parse_patterns [] envv argv

/-- `Config._parse_skip_domains`: union of both sources, entries stripped
and lowercased. -/
def parse_skip_domains (envv argv : Option (List Char)) : List (List Char) :=
  let s : List (List Char) := []
  let envp := stripStr (envv.getD [])
  let s := if !envp.isEmpty then setAddAll s (csvEntries true envp) else s
  match argv with
  | none => s
  | some a => if !a.isEmpty then setAddAll s (csvEntries true a) else s

/-- `Config._parse_skip_urls`: union of both sources, entries stripped but
not lowercased. -/
def parse_skip_urls (envv argv : Option (List Char)) : List (List Char) :=
  let s : List (List Char) := []
  let envp := stripStr (envv.getD [])
  let s := if !envp.isEmpty then setAddAll s (csvEntries false envp) else s
  match argv with
  | none => s
  | some a => if !a.isEmpty then setAddAll s (csvEntries false a) else s

/-- `Config._parse_skip_files`: same as skip URLs. -/
def parse_skip_files (envv argv : Option (List Char)) : List (List Char) :=
  parse_skip_urls envv argv

/-- `Config._parse_replacements`: parse the environment JSON first, merge the
command-line JSON in; a failed parse exits the process with code 1.  JSON
decoding itself is the standard library's, abstracted as `parse` returning
the object's ordered key/value pairs or `none` for malformed text. -/
def parse_replacements
    (parse : List Char → Option (List (List Char × List Char)))
    (envv argv : Option (List Char)) :
    Except Nat (List (List Char × List Char)) :=
  let step1 : Except Nat (List (List Char × List Char)) :=
    let envp := stripStr (envv.getD [])
    if envp.isEmpty then Except.ok []
    else
      match parse envp with
      | some m => Except.ok (dictUpdate [] m)
      | none => Except.error 1
  match step1 with
  | Except.error e => Except.error e
  | Except.ok repl =>
    match argv with
    | none => Except.ok repl
    | some a =>
      if a.isEmpty then Except.ok repl
      else
        match parse a with
        | some m => Except.ok (dictUpdate repl m)
        | none => Except.error 1

/-! ### Checking and reporting (`check_urls_parallel`, `print_results`)

A worker task's network outcome is a function `outcome` from URL to
(success, status, detail) — `check_url` is one bounded HTTP request, pure
per URL under fixed network behavior.  A run of the pool is abstracted by
the order in which tasks complete: `order` is some permutation of the sorted
canonical URL list, and the pool size `workers` affects scheduling only, so
it is a parameter the collected results cannot depend on. -/

/-- `check_urls_parallel`: the broken-link records in completion order.
Each failed URL contributes `(url, status, detail, provenance)`. -/
def check_urls_parallel (workers : Nat)
    (outcome : List Char → Bool × Nat × List Char)
    (url_sources : List ((List Char) × List (List Char)))
    (order : List (List Char)) :
    List ((List Char) × Nat × (List Char) × List (List Char)) :=
  let _ := workers
  order.filterMap (fun u =>
    let r := outcome u
    if r.1 then none else some (u, r.2.1, r.2.2, lookupSrc url_sources u))

/-- The URLs the verbose path reports as successes, in completion order. -/
def successList (outcome : List Char → Bool × Nat × List Char)
    (order : List (List Char)) : List (List Char) :=
  order.filter (fun u => (outcome u).1)

/-- What `print_results` prints, structurally. -/
inductive Report where
  | failures (items : List ((List Char) × (List Char) × List (List Char) × Nat)) :
      Report
  | success (totalUrls totalFiles : Nat) : Report
deriving Repr, DecidableEq

/-- One broken link's report block: URL, detail, the first five provenance
entries, and the count of entries past the fifth (0 when five or fewer). -/
def reportItem (e : (List Char) × Nat × (List Char) × List (List Char)) :
    (List Char) × (List Char) × List (List Char) × Nat :=
  (e.1, e.2.2.1, e.2.2.2.take 5,
    if 5 < e.2.2.2.length then e.2.2.2.length - 5 else 0)

/-- `print_results`: the report and the exit code it returns. -/
def print_results
    (broken : List ((List Char) × Nat × (List Char) × List (List Char)))
    (total_urls total_files : Nat) : Report × Nat :=
  if broken.isEmpty then (Report.success total_urls total_files, 0)
  else (Report.failures (broken.map reportItem), 1)

/-- The configuration-then-scan prefix of `main`/`run`: `Config.__init__`
parses the replacements before any file is read, and a parse failure exits
the process (code 1) with no extraction performed.  On success the scan and
extraction run; the second component records whether extraction ran. -/
def runModel (parse : List Char → Option (List (List Char × List Char)))
    (envv argv : Option (List Char)) (cfgRest : Config)
    (files : List ScannedFile) : Nat × Option ExtractState :=
  match parse_replacements parse envv argv with
  | Except.error c => (c, none)
  | Except.ok repls =>
    (0, some (extract_all_urls { cfgRest with replacements := repls } files))

/-! ### Spec-side definitions used by refinement claims -/

/-- Modelled from the spec: the domain as §4.4 words it — "strip the scheme
prefix, take the segment up to the first `/`, strip any trailing `:port`,
lowercase the result". -/
def domainOfSpec (url : List Char) : List Char :=
  let rest :=
    if (s2l "https://").isPrefixOf url then url.drop 8
    else if (s2l "http://").isPrefixOf url then url.drop 7
    else url
  toLowerStr ((rest.takeWhile (fun c => c ≠ '/')).takeWhile (fun c => c ≠ ':'))

/-- Modelled from the spec: eligibility as the conjunction §4.4 states,
with `domainOfSpec` as the domain. -/
def eligibleSpec (cfg : Config) (url : List Char) : Bool :=
  ((s2l "http://").isPrefixOf url || (s2l "https://").isPrefixOf url) &&
  !([s2l "localhost", s2l "127.0.0.1", s2l "0.0.0.0"].any
      (fun p => containsSub (toLowerStr url) p)) &&
  !([s2l "example.com", s2l "example.org"].any
      (fun d => containsSub (toLowerStr url) d)) &&
  !(cfg.skip_domains.any (fun sk => containsSub (domainOfSpec url) sk)) &&
  !(cfg.skip_urls.any (fun sk => containsSub url sk))

/-- Modelled from the spec: the fixed-point rewriting loop §4.5 rules out
("not a fixed-point loop"), for contrast with `apply_replacements`. -/
def replaceUntilStable : Nat → List (List Char × List Char) → List Char →
    List Char
  | 0, _, u => u
  | fuel + 1, rs, u =>
    let v := apply_replacements rs u
    if v = u then u else replaceUntilStable fuel rs v

/-- A `Config` with every field empty, the base for concrete instances. -/
def emptyConfig : Config := ⟨[], [], [], [], [], [], []⟩

/-! ### Shared helper lemmas -/

theorem isPrefixOf_exists : ∀ (l s : List Char), l.isPrefixOf s = true →
    ∃ t, s = l ++ t
  | [], s, _ => ⟨s, rfl⟩
  | a :: as, [], h => by simp [List.isPrefixOf] at h
  | a :: as, b :: bs, h => by
    simp only [List.isPrefixOf, Bool.and_eq_true, beq_iff_eq] at h
    obtain ⟨t, ht⟩ := isPrefixOf_exists as bs h.2
    exact ⟨t, by rw [h.1, List.cons_append, ht]⟩

theorem guard_any (l : List (List Char)) (p : List Char → Bool) :
    (!l.isEmpty && l.any p) = l.any p := by
  cases l <;> simp

theorem get_domain_http (rest : List Char) :
    get_domain (s2l "http://" ++ rest) =
      toLowerStr ((rest.takeWhile (fun c => c ≠ '/')).takeWhile
        (fun c => c ≠ ':')) := by
  rw [get_domain]
  have h1 : containsSub (s2l "http://" ++ rest) (s2l "://") = true := by
    apply List.any_eq_true.mpr
    refine ⟨4, by simp [List.mem_range, s2l], by simp [s2l, List.isPrefixOf]⟩
  rw [h1]
  simp only [if_true]
  rw [show afterFirst (s2l "http://" ++ rest) (s2l "://") = rest from by
    simp [s2l, afterFirst, List.isPrefixOf]]

theorem get_domain_https (rest : List Char) :
    get_domain (s2l "https://" ++ rest) =
      toLowerStr ((rest.takeWhile (fun c => c ≠ '/')).takeWhile
        (fun c => c ≠ ':')) := by
  rw [get_domain]
  have h1 : containsSub (s2l "https://" ++ rest) (s2l "://") = true := by
    apply List.any_eq_true.mpr
    refine ⟨5, by simp [List.mem_range, s2l], by simp [s2l, List.isPrefixOf]⟩
  rw [h1]
  simp only [if_true]
  rw [show afterFirst (s2l "https://" ++ rest) (s2l "://") = rest from by
    simp [s2l, afterFirst, List.isPrefixOf]]

theorem get_domain_scheme (url : List Char)
    (h : ((s2l "http://").isPrefixOf url || (s2l "https://").isPrefixOf url)
      = true) :
    get_domain url = domainOfSpec url := by
  rcases Bool.or_eq_true_iff.mp h with h1 | h1
  · obtain ⟨t, rfl⟩ := isPrefixOf_exists _ _ h1
    rw [get_domain_http, domainOfSpec]
    have hno : (s2l "https://").isPrefixOf (s2l "http://" ++ t) = false := by
      simp [s2l, List.isPrefixOf]
    have hyes : (s2l "http://").isPrefixOf (s2l "http://" ++ t) = true := by
      simp [s2l, List.isPrefixOf]
    rw [hno, hyes]
    simp [s2l]
  · obtain ⟨t, rfl⟩ := isPrefixOf_exists _ _ h1
    rw [get_domain_https, domainOfSpec]
    have hyes : (s2l "https://").isPrefixOf (s2l "https://" ++ t) = true := by
      simp [s2l, List.isPrefixOf]
    rw [hyes]
    simp [s2l]

/-- C4: a URL is eligible for checking iff it carries an http/https scheme,
contains none of the localhost/loopback markers nor the example domains
(case-insensitively), its domain — scheme prefix stripped, segment up to the
first `/`, any `:port` stripped, lowercased — contains no skip-domain entry
as a substring, and no skip-url entry occurs in the full URL: the source's
early-return filter equals the specification's conjunction. -/
theorem c4_is_valid_url_spec (cfg : Config) (url : List Char) :
    is_valid_url cfg url = eligibleSpec cfg url := by
  by_cases hs : ((s2l "http://").isPrefixOf url ||
      (s2l "https://").isPrefixOf url) = true
  · rw [is_valid_url, eligibleSpec, hs, get_domain_scheme url hs]
    simp only [Bool.not_true, Bool.true_and, if_false, Bool.false_eq_true,
      ite_false]
    by_cases h1 : ([s2l "localhost", s2l "127.0.0.1", s2l "0.0.0.0"].any
        (fun p => containsSub (toLowerStr url) p)) = true
    · simp [h1]
    · rw [Bool.not_eq_true] at h1
      rw [h1]
      simp only [Bool.not_false, Bool.true_and, if_false, Bool.false_eq_true,
        ite_false]
      by_cases h2 : ([s2l "example.com", s2l "example.org"].any
          (fun d => containsSub (toLowerStr url) d)) = true
      · simp [h2]
      · rw [Bool.not_eq_true] at h2
        rw [h2]
        simp only [Bool.not_false, Bool.true_and, if_false, Bool.false_eq_true,
          ite_false]
        rw [guard_any, guard_any]
        by_cases h3 : (cfg.skip_domains.any
            (fun sk => containsSub (domainOfSpec url) sk)) = true
        · simp [h3]
        · rw [Bool.not_eq_true] at h3
          rw [h3]
          simp only [Bool.not_false, Bool.true_and, if_false,
            Bool.false_eq_true, ite_false]
          by_cases h4 : (cfg.skip_urls.any
              (fun sk => containsSub url sk)) = true
          · simp [h4]
          · rw [Bool.not_eq_true] at h4
            rw [h4]
            simp
  · rw [Bool.not_eq_true] at hs
    rw [is_valid_url, eligibleSpec, hs]
    simp

/-- C10: skip-url filtering is case-sensitive while the other filters are
not: a URL differing from the lone skip-url entry only in case stays
eligible; skip-domain entries are lowercased at parse time and compared
against the lowercased domain, so a case-varied domain is still excluded;
and the localhost filter matches case-insensitively. -/
theorem c10_case_sensitivity :
    is_valid_url { emptyConfig with skip_urls := [s2l "https://foo.dev/path"] }
      (s2l "https://FOO.dev/path") = true ∧
    (s2l "https://foo.dev/path" ≠ s2l "https://FOO.dev/path" ∧
      toLowerStr (s2l "https://FOO.dev/path") = s2l "https://foo.dev/path") ∧
    parse_skip_domains (some (s2l "GitHub.com, Twitter.COM")) none =
      [s2l "github.com", s2l "twitter.com"] ∧
    is_valid_url { emptyConfig with skip_domains := [s2l "github.com"] }
      (s2l "https://GitHub.com/x") = false ∧
    is_valid_url emptyConfig (s2l "http://LocalHost/road") = false ∧
    is_valid_url emptyConfig (s2l "https://ex.dev/Example.COM") = false := by
  decide

/-- C2: replacement is one left-to-right sweep over the configured pairs —
`apply_replacements` over a concatenation of configurations is sequential
composition, each pair applied exactly once in order — and in the concrete
configuration a→b, b→c, d→b (pair 0's `to` "b" contains pair 1's `from`
"b"), the canonical URL of `https://x.net/ad` is `https://x.net/cb`, which
still contains the unreplaced later `from` pattern "b"; a fixed-point loop
would instead reach `https://x.net/cc`. -/
theorem c2_single_sweep :
    (∀ ps qs u, apply_replacements (ps ++ qs) u =
      apply_replacements qs (apply_replacements ps u)) ∧
    containsSub (s2l "b") (s2l "b") = true ∧
    apply_replacements [(s2l "a", s2l "b"), (s2l "b", s2l "c"),
      (s2l "d", s2l "b")] (s2l "https://x.net/ad") = s2l "https://x.net/cb" ∧
    containsSub (s2l "https://x.net/cb") (s2l "b") = true ∧
    replaceUntilStable 4 [(s2l "a", s2l "b"), (s2l "b", s2l "c"),
      (s2l "d", s2l "b")] (s2l "https://x.net/ad") = s2l "https://x.net/cc" ∧
    s2l "https://x.net/cb" ≠ s2l "https://x.net/cc" := by
  refine ⟨fun ps qs u => List.foldl_append _ _ _ _, ?_⟩
  decide

/-! ### Extraction-state invariants -/

theorem mem_addURL (s : List (List Char)) (u v : List Char) :
    v ∈ addURL s u ↔ v ∈ s ∨ v = u := by
  rw [addURL]
  by_cases h : u ∈ s
  · simp only [h, if_true]
    constructor
    · exact fun hv => Or.inl hv
    · rintro (hv | rfl) <;> assumption
  · simp [h]

theorem nodup_addURL (s : List (List Char)) (u : List Char)
    (h : s.Nodup) : (addURL s u).Nodup := by
  rw [addURL]
  by_cases hm : u ∈ s
  · simpa [hm]
  · simp [hm, List.nodup_append, h]

theorem lookupSrc_addSource :
    ∀ (m : List ((List Char) × List (List Char))) (u p v : List Char),
    lookupSrc (addSource m u p) v =
      lookupSrc m v ++ (if v = u then [p] else [])
  | [], u, p, v => by
    by_cases h : v = u
    · simp [addSource, lookupSrc, h]
    · have h2 : ¬ u = v := fun hh => h hh.symm
      simp [addSource, lookupSrc, h, h2]
  | (k, ps) :: rest, u, p, v => by
    rw [addSource]
    by_cases hk : k = u
    · rw [if_pos hk]
      by_cases hv : k = v
      · have hvu : v = u := hv.symm.trans hk
        simp [lookupSrc, hv, hvu]
      · have hvu : ¬ v = u := fun hh => hv (hk.trans hh.symm)
        simp [lookupSrc, hv, hvu]
    · rw [if_neg hk]
      by_cases hv : k = v
      · have hvu : ¬ v = u := fun hh => hk (hv.trans hh)
        simp [lookupSrc, hv, hvu]
      · simp [lookupSrc, hv, lookupSrc_addSource rest u p v]

/-- The number of raw URLs in `urls` that pass the filter and rewrite to the
canonical URL `v`. -/
def countTo (cfg : Config) (v : List Char) (urls : List (List Char)) : Nat :=
  (urls.filter (fun u => is_valid_url cfg u &&
    (apply_replacements cfg.replacements u == v))).length

theorem processURL_mem (cfg : Config) (p : List Char) (st : ExtractState)
    (u v : List Char) :
    v ∈ (processURL cfg p st u).all_urls ↔
      v ∈ st.all_urls ∨ (is_valid_url cfg u = true ∧
        apply_replacements cfg.replacements u = v) := by
  rw [processURL]
  by_cases h : is_valid_url cfg u = true
  · simp only [h, if_true, mem_addURL]
    constructor
    · rintro (hv | rfl)
      · exact Or.inl hv
      · exact Or.inr ⟨trivial, rfl⟩
    · rintro (hv | ⟨-, rfl⟩)
      · exact Or.inl hv
      · exact Or.inr rfl
  · simp [h]

theorem processURL_src (cfg : Config) (p : List Char) (st : ExtractState)
    (u v : List Char) :
    lookupSrc (processURL cfg p st u).url_sources v =
      lookupSrc st.url_sources v ++
        (if is_valid_url cfg u &&
            (apply_replacements cfg.replacements u == v) then [p] else []) := by
  rw [processURL]
  by_cases h : is_valid_url cfg u = true
  · simp only [h, if_true, Bool.true_and, lookupSrc_addSource]
    by_cases hv : v = apply_replacements cfg.replacements u
    · simp [hv]
    · have : ¬ (apply_replacements cfg.replacements u == v) = true := by
        simp
        exact fun hh => hv hh.symm
      simp [hv, this]
  · have hb : is_valid_url cfg u = false := by
      rw [Bool.not_eq_true] at h
      exact h
    simp [hb, h]

theorem processURL_nodup (cfg : Config) (p : List Char) (st : ExtractState)
    (u : List Char) (h : st.all_urls.Nodup) :
    (processURL cfg p st u).all_urls.Nodup := by
  rw [processURL]
  by_cases hv : is_valid_url cfg u = true
  · simp only [hv, if_true]
    exact nodup_addURL _ _ h
  · simp [hv, h]

theorem foldURLs_mem (cfg : Config) (p : List Char) (v : List Char) :
    ∀ (urls : List (List Char)) (st : ExtractState),
    (v ∈ (urls.foldl (processURL cfg p) st).all_urls ↔
      v ∈ st.all_urls ∨ ∃ u ∈ urls, is_valid_url cfg u = true ∧
        apply_replacements cfg.replacements u = v)
  | [], st => by simp
  | u :: urls, st => by
    rw [List.foldl_cons, foldURLs_mem cfg p v urls, processURL_mem]
    constructor
    · rintro ((hv | hu) | ⟨w, hw, hv⟩)
      · exact Or.inl hv
      · exact Or.inr ⟨u, List.mem_cons_self u urls, hu⟩
      · exact Or.inr ⟨w, List.mem_cons_of_mem u hw, hv⟩
    · rintro (hv | ⟨w, hw, hv⟩)
      · exact Or.inl (Or.inl hv)
      · rcases List.mem_cons.mp hw with rfl | hw2
        · exact Or.inl (Or.inr hv)
        · exact Or.inr ⟨w, hw2, hv⟩

theorem foldURLs_src (cfg : Config) (p : List Char) (v : List Char) :
    ∀ (urls : List (List Char)) (st : ExtractState),
    lookupSrc (urls.foldl (processURL cfg p) st).url_sources v =
      lookupSrc st.url_sources v ++ List.replicate (countTo cfg v urls) p
  | [], st => by simp [countTo]
  | u :: urls, st => by
    rw [List.foldl_cons, foldURLs_src cfg p v urls, processURL_src]
    by_cases h : (is_valid_url cfg u &&
        (apply_replacements cfg.replacements u == v)) = true
    · have hc : countTo cfg v (u :: urls) = countTo cfg v urls + 1 := by
        simp [countTo, List.filter_cons, h, Nat.add_comm]
      simp [h, hc, List.append_assoc, List.replicate_succ]
    · rw [Bool.not_eq_true] at h
      have hc : countTo cfg v (u :: urls) = countTo cfg v urls := by
        simp [countTo, List.filter_cons, h]
      simp [h, hc]

theorem foldURLs_nodup (cfg : Config) (p : List Char) :
    ∀ (urls : List (List Char)) (st : ExtractState),
    st.all_urls.Nodup → (urls.foldl (processURL cfg p) st).all_urls.Nodup
  | [], _st, h => h
  | u :: urls, st, h =>
    foldURLs_nodup cfg p urls _ (processURL_nodup cfg p st u h)

/-- The provenance sequence the specification predicts for canonical URL
`v`: per scanned file, one entry per valid raw occurrence rewriting to `v`,
in file order. -/
def provSpec (cfg : Config) (v : List Char) : List ScannedFile →
    List (List Char)
  | [] => []
  | f :: rest =>
    List.replicate (countTo cfg v (extractFile f)) f.path ++ provSpec cfg v rest

/-- The total number of valid raw occurrences (over all files) rewriting to
`v`. -/
def countRaw (cfg : Config) (v : List Char) : List ScannedFile → Nat
  | [] => 0
  | f :: rest => countTo cfg v (extractFile f) + countRaw cfg v rest

theorem foldFiles_mem (cfg : Config) (v : List Char) :
    ∀ (files : List ScannedFile) (st : ExtractState),
    (v ∈ (files.foldl (processFile cfg) st).all_urls ↔
      v ∈ st.all_urls ∨ ∃ f ∈ files, ∃ u ∈ extractFile f,
        is_valid_url cfg u = true ∧ apply_replacements cfg.replacements u = v)
  | [], st => by simp
  | f :: files, st => by
    rw [List.foldl_cons, foldFiles_mem cfg v files]
    rw [show processFile cfg st f = (extractFile f).foldl
      (processURL cfg f.path) st from rfl, foldURLs_mem]
    constructor
    · rintro ((hv | ⟨u, hu, hval⟩) | ⟨g, hg, hrest⟩)
      · exact Or.inl hv
      · exact Or.inr ⟨f, List.mem_cons_self f files, u, hu, hval⟩
      · exact Or.inr ⟨g, List.mem_cons_of_mem f hg, hrest⟩
    · rintro (hv | ⟨g, hg, hrest⟩)
      · exact Or.inl (Or.inl hv)
      · rcases List.mem_cons.mp hg with rfl | hg2
        · exact Or.inl (Or.inr hrest)
        · exact Or.inr ⟨g, hg2, hrest⟩

theorem foldFiles_src (cfg : Config) (v : List Char) :
    ∀ (files : List ScannedFile) (st : ExtractState),
    lookupSrc (files.foldl (processFile cfg) st).url_sources v =
      lookupSrc st.url_sources v ++ provSpec cfg v files
  | [], st => by simp [provSpec]
  | f :: files, st => by
    rw [List.foldl_cons, foldFiles_src cfg v files,
      show processFile cfg st f = (extractFile f).foldl
        (processURL cfg f.path) st from rfl,
      foldURLs_src, provSpec, List.append_assoc]

theorem extract_all_urls_mem (cfg : Config) (files : List ScannedFile)
    (v : List Char) :
    v ∈ (extract_all_urls cfg files).all_urls ↔
      ∃ f ∈ files, ∃ u ∈ extractFile f,
        is_valid_url cfg u = true ∧ apply_replacements cfg.replacements u = v := by
  rw [extract_all_urls, foldFiles_mem]
  simp

theorem extract_all_urls_src (cfg : Config) (files : List ScannedFile)
    (v : List Char) :
    lookupSrc (extract_all_urls cfg files).url_sources v =
      provSpec cfg v files := by
  rw [extract_all_urls, foldFiles_src]
  simp [lookupSrc]

theorem extract_all_urls_nodup (cfg : Config) (files : List ScannedFile) :
    (extract_all_urls cfg files).all_urls.Nodup := by
  rw [extract_all_urls]
  have : ∀ (fl : List ScannedFile) (st : ExtractState), st.all_urls.Nodup →
      (fl.foldl (processFile cfg) st).all_urls.Nodup := by
    intro fl
    induction fl with
    | nil => exact fun _st h => h
    | cons f fl ih =>
      intro st h
      exact ih _ (foldURLs_nodup cfg f.path (extractFile f) st h)
  exact this files _ (by simp)

theorem provSpec_length (cfg : Config) (v : List Char) :
    ∀ files : List ScannedFile, (provSpec cfg v files).length = countRaw cfg v files
  | [] => rfl
  | f :: files => by
    rw [provSpec, countRaw, List.length_append, List.length_replicate,
      provSpec_length cfg v files]

/-- C1: the validity filter runs on the original raw URL, and only then are
replacements applied — every member of the canonical set is the replacement
image of a raw URL that passed the filter in its original form — so a raw
URL whose extracted domain contains a skip-domain entry is rejected by the
filter and contributes nothing to the canonical set or the provenance map,
whatever the configured replacement mapping (including one that would
rewrite the domain into a passing one). -/
theorem c1_filter_before_replacement (cfg : Config) (u skip : List Char)
    (hskip : skip ∈ cfg.skip_domains)
    (hdom : containsSub (get_domain u) skip = true) :
    is_valid_url cfg u = false ∧
    (∀ p st, processURL cfg p st u = st) ∧
    (∀ files v, v ∈ (extract_all_urls cfg files).all_urls →
      ∃ f ∈ files, ∃ raw ∈ extractFile f, is_valid_url cfg raw = true ∧
        apply_replacements cfg.replacements raw = v) := by
  have hany : cfg.skip_domains.any
      (fun sk => containsSub (get_domain u) sk) = true :=
    List.any_eq_true.mpr ⟨skip, hskip, hdom⟩
  have hne : cfg.skip_domains.isEmpty = false := by
    cases h : cfg.skip_domains with
    | nil => rw [h] at hskip; cases hskip
    | cons a l => rfl
  have hfalse : is_valid_url cfg u = false := by
    rw [is_valid_url, hne, hany]
    simp
  refine ⟨hfalse, fun p st => by simp [processURL, hfalse], fun files v hv =>
    (extract_all_urls_mem cfg files v).mp hv⟩

/-- A configuration whose replacement mapping would rewrite the skipped
domain `bad.dev` into the passing `good.dev`. -/
def c1cfg : Config :=
  { emptyConfig with
      skip_domains := [s2l "bad.dev"],
      replacements := [(s2l "bad.dev", s2l "good.dev")] }

theorem c1_witness :
    (s2l "bad.dev") ∈ c1cfg.skip_domains ∧
    containsSub (get_domain (s2l "https://sub.bad.dev/x")) (s2l "bad.dev")
      = true ∧
    (is_valid_url c1cfg (s2l "https://sub.bad.dev/x") = false ∧
      (∀ p st, processURL c1cfg p st (s2l "https://sub.bad.dev/x") = st) ∧
      (∀ files v, v ∈ (extract_all_urls c1cfg files).all_urls →
        ∃ f ∈ files, ∃ raw ∈ extractFile f, is_valid_url c1cfg raw = true ∧
          apply_replacements c1cfg.replacements raw = v)) :=
  ⟨by decide, by decide,
    c1_filter_before_replacement c1cfg (s2l "https://sub.bad.dev/x")
      (s2l "bad.dev") (by decide) (by decide)⟩

/-- C7: the provenance map sends each canonical URL to the file paths of its
valid raw occurrences in encounter order, one entry per occurrence with
duplicates retained (so distinct raw URLs rewriting to the same canonical
URL merge under one key), its length is at least (here: exactly) the number
of valid raw occurrences rewriting to that canonical URL, and the canonical
set holds no duplicates. -/
theorem c7_provenance (cfg : Config) (files : List ScannedFile) :
    (∀ v, lookupSrc (extract_all_urls cfg files).url_sources v =
      provSpec cfg v files) ∧
    (extract_all_urls cfg files).all_urls.Nodup ∧
    (∀ v, countRaw cfg v files ≤
      (lookupSrc (extract_all_urls cfg files).url_sources v).length) ∧
    (∀ v, v ∈ (extract_all_urls cfg files).all_urls ↔
      ∃ f ∈ files, ∃ u ∈ extractFile f, is_valid_url cfg u = true ∧
        apply_replacements cfg.replacements u = v) :=
  ⟨fun v => extract_all_urls_src cfg files v,
    extract_all_urls_nodup cfg files,
    fun v => by rw [extract_all_urls_src, provSpec_length],
    fun v => extract_all_urls_mem cfg files v⟩

/-- C3: the partition of check results into successes and failures, and the
exit code, do not depend on the worker-pool size or on the completion order:
for any two pool sizes and any two completion orders that are permutations
of each other, the broken-link collections are permutations of each other,
the success lists likewise, the exit codes agree, and the exit code is 0
exactly when the failure set is empty. -/
theorem c3_completion_order_invariance (w1 w2 : Nat)
    (outcome : List Char → Bool × Nat × List Char)
    (srcs : List ((List Char) × List (List Char)))
    (o1 o2 : List (List Char)) (h : o1.Perm o2) :
    (check_urls_parallel w1 outcome srcs o1).Perm
      (check_urls_parallel w2 outcome srcs o2) ∧
    (successList outcome o1).Perm (successList outcome o2) ∧
    (∀ tu tf,
      (print_results (check_urls_parallel w1 outcome srcs o1) tu tf).2 =
      (print_results (check_urls_parallel w2 outcome srcs o2) tu tf).2) ∧
    (∀ tu tf,
      ((print_results (check_urls_parallel w1 outcome srcs o1) tu tf).2 = 0 ↔
        check_urls_parallel w1 outcome srcs o1 = [])) := by
  have hperm : (check_urls_parallel w1 outcome srcs o1).Perm
      (check_urls_parallel w2 outcome srcs o2) := List.Perm.filterMap _ h
  have hexit : ∀ (b : List ((List Char) × Nat × (List Char) × List (List Char)))
      (tu tf : Nat), (print_results b tu tf).2 = (if b = [] then 0 else 1) := by
    intro b tu tf
    by_cases hb : b = []
    · simp [print_results, hb]
    · rw [print_results, if_neg (by simpa [List.isEmpty_iff] using hb)]
      simp [hb]
  refine ⟨hperm, List.Perm.filter _ h, fun tu tf => ?_, fun tu tf => ?_⟩
  · rw [hexit, hexit]
    by_cases h1 : check_urls_parallel w1 outcome srcs o1 = []
    · have h2 : check_urls_parallel w2 outcome srcs o2 = [] :=
        List.Perm.eq_nil (h1 ▸ hperm).symm
      rw [h1, h2]
    · have h2 : check_urls_parallel w2 outcome srcs o2 ≠ [] := by
        intro hh
        exact h1 (List.Perm.eq_nil (hh ▸ hperm))
      rw [if_neg h1, if_neg h2]
  · rw [hexit]
    by_cases h1 : check_urls_parallel w1 outcome srcs o1 = [] <;> simp [h1]

/-- A concrete two-URL outcome function: one URL resolves, one fails. -/
def c3outcome (u : List Char) : Bool × Nat × List Char :=
  if u = s2l "http://ok.dev/" then (true, 200, [])
  else (false, 0, s2l "URL Error: refused")

theorem c3_witness :
    (((s2l "http://dead.dev/") :: (s2l "http://ok.dev/") :: []).Perm
      ((s2l "http://ok.dev/") :: (s2l "http://dead.dev/") :: [])) ∧
    ((check_urls_parallel 1 c3outcome []
        ((s2l "http://dead.dev/") :: (s2l "http://ok.dev/") :: [])).Perm
      (check_urls_parallel 8 c3outcome []
        ((s2l "http://ok.dev/") :: (s2l "http://dead.dev/") :: [])) ∧
    (successList c3outcome
        ((s2l "http://dead.dev/") :: (s2l "http://ok.dev/") :: [])).Perm
      (successList c3outcome
        ((s2l "http://ok.dev/") :: (s2l "http://dead.dev/") :: [])) ∧
    (∀ tu tf,
      (print_results (check_urls_parallel 1 c3outcome []
        ((s2l "http://dead.dev/") :: (s2l "http://ok.dev/") :: [])) tu tf).2 =
      (print_results (check_urls_parallel 8 c3outcome []
        ((s2l "http://ok.dev/") :: (s2l "http://dead.dev/") :: [])) tu tf).2) ∧
    (∀ tu tf,
      ((print_results (check_urls_parallel 1 c3outcome []
        ((s2l "http://dead.dev/") :: (s2l "http://ok.dev/") :: [])) tu tf).2 = 0 ↔
        check_urls_parallel 1 c3outcome []
          ((s2l "http://dead.dev/") :: (s2l "http://ok.dev/") :: []) = []))) :=
  ⟨List.Perm.swap (s2l "http://ok.dev/") (s2l "http://dead.dev/") [],
    c3_completion_order_invariance 1 8 c3outcome [] _ _
      (List.Perm.swap (s2l "http://ok.dev/") (s2l "http://dead.dev/") [])⟩

/-- Association lookup into an ordered replacement mapping. -/
def lookupRepl : List (List Char × List Char) → List Char → Option (List Char)
  | [], _ => none
  | (k, v) :: rest, q => if k = q then some v else lookupRepl rest q

theorem lookupRepl_dictInsert (m : List (List Char × List Char))
    (k v : List Char) : lookupRepl (dictInsert m k v) k = some v := by
  induction m with
  | nil => simp [dictInsert, lookupRepl]
  | cons kv rest ih =>
    obtain ⟨k2, v2⟩ := kv
    rw [dictInsert]
    by_cases hk : k2 = k
    · simp [hk, lookupRepl]
    · simp [hk, lookupRepl, ih]

theorem lookupRepl_dictInsert_other :
    ∀ (m : List (List Char × List Char)) (k v q : List Char), q ≠ k →
    lookupRepl (dictInsert m k v) q = lookupRepl m q
  | [], k, v, q, hq => by
    have h2 : ¬ k = q := fun hh => hq hh.symm
    simp [dictInsert, lookupRepl, h2]
  | (k2, v2) :: rest, k, v, q, hq => by
    rw [dictInsert]
    by_cases hk : k2 = k
    · rw [if_pos hk]
      have h2 : ¬ k = q := fun hh => hq hh.symm
      have h3 : ¬ k2 = q := by rw [hk]; exact h2
      simp [lookupRepl, h2, h3]
    · rw [if_neg hk]
      by_cases h2 : k2 = q
      · simp [lookupRepl, h2]
      · simp [lookupRepl, h2, lookupRepl_dictInsert_other rest k v q hq]

/-- C5: the replacement mapping is the environment JSON parsed first with
the command-line JSON merged in — the merged result is
`dictUpdate (dictUpdate [] envMap) cliMap`, where an updated key overrides
any earlier binding and other keys are untouched — and a malformed value
from either source aborts the run with exit code 1 before any extraction
takes place. -/
theorem c5_replacements_merge
    (parse : List Char → Option (List (List Char × List Char)))
    (envv argv : Option (List Char)) (cfgRest : Config)
    (files : List ScannedFile) :
    (∀ e m1 a m2, envv = some e → stripStr e ≠ [] →
      parse (stripStr e) = some m1 → argv = some a → a ≠ [] →
      parse a = some m2 →
      parse_replacements parse envv argv =
        Except.ok (dictUpdate (dictUpdate [] m1) m2)) ∧
    (∀ m k v, lookupRepl (dictUpdate m [(k, v)]) k = some v) ∧
    (∀ m k v q, q ≠ k → lookupRepl (dictUpdate m [(k, v)]) q = lookupRepl m q) ∧
    (∀ e, envv = some e → stripStr e ≠ [] → parse (stripStr e) = none →
      runModel parse envv argv cfgRest files = (1, none)) ∧
    (∀ a, argv = some a → a ≠ [] → parse a = none →
      runModel parse envv argv cfgRest files = (1, none)) := by
  refine ⟨?_, ?_, ?_, ?_, ?_⟩
  · intro e m1 a m2 he hne hp1 ha hna hp2
    subst he ha
    have hie : (stripStr e).isEmpty = false := by
      simpa [List.isEmpty_iff] using hne
    have hia : a.isEmpty = false := by simpa [List.isEmpty_iff] using hna
    simp [parse_replacements, hie, hia, hp1, hp2]
  · intro m k v
    exact lookupRepl_dictInsert m k v
  · intro m k v q hq
    exact lookupRepl_dictInsert_other m k v q hq
  · intro e he hne hp
    subst he
    have hie : (stripStr e).isEmpty = false := by
      simpa [List.isEmpty_iff] using hne
    simp [runModel, parse_replacements, hie, hp]
  · intro a ha hna hp
    subst ha
    have hia : a.isEmpty = false := by simpa [List.isEmpty_iff] using hna
    by_cases hie : (stripStr (envv.getD [])).isEmpty
    · simp [runModel, parse_replacements, hie, hia, hp]
    · cases hpe : parse (stripStr (envv.getD [])) with
      | none => simp [runModel, parse_replacements, hie, hpe]
      | some m => simp [runModel, parse_replacements, hie, hpe, hia, hp]

theorem mem_setAdd (s : List (List Char)) (y x : List Char) :
    x ∈ setAdd s y ↔ x ∈ s ∨ x = y := by
  rw [setAdd]
  by_cases h : y ∈ s
  · simp only [h, if_true]
    constructor
    · exact fun hv => Or.inl hv
    · rintro (hv | rfl) <;> assumption
  · simp [h]

theorem mem_setAddAll : ∀ (xs s : List (List Char)) (x : List Char),
    x ∈ setAddAll s xs ↔ x ∈ s ∨ x ∈ xs
  | [], s, x => by simp [setAddAll]
  | y :: xs, s, x => by
    rw [setAddAll, List.foldl_cons,
      show xs.foldl setAdd (setAdd s y) = setAddAll (setAdd s y) xs from rfl,
      mem_setAddAll xs (setAdd s y) x, mem_setAdd]
    constructor
    · rintro ((hv | rfl) | hv)
      · exact Or.inl hv
      · exact Or.inr (List.mem_cons_self _ _)
      · exact Or.inr (List.mem_cons_of_mem _ hv)
    · rintro (hv | hv)
      · exact Or.inl (Or.inl hv)
      · rcases List.mem_cons.mp hv with rfl | hv2
        · exact Or.inl (Or.inr rfl)
        · exact Or.inr hv2

/-- C6: the configuration merge is asymmetric.  Each skip set is the union
of the entries contributed by the environment and by the command line
(environment entries survive whenever the variable provides them), while
each extension-pattern list is replaced wholesale: the command-line list
when one is given, else the environment list when one is given, else the
built-in default (`.md,.markdown`; `.html,.htm`; empty). -/
theorem c6_merge_asymmetry (envv argv : Option (List Char)) :
    (∀ dflt a, argv = some a → a ≠ [] →
      parse_patterns dflt envv argv = csvEntries false a) ∧
    (∀ dflt e, (argv = none ∨ argv = some []) → envv = some e →
      stripStr e ≠ [] →
      parse_patterns dflt envv argv = csvEntries false (stripStr e)) ∧
    (∀ dflt, (argv = none ∨ argv = some []) →
      stripStr (envv.getD []) = [] → parse_patterns dflt envv argv = dflt) ∧
    markdown_patterns none none = [s2l ".md", s2l ".markdown"] ∧
    html_patterns none none = [s2l ".html", s2l ".htm"] ∧
    file_patterns none none = [] ∧
    (∀ x, x ∈ parse_skip_domains envv argv ↔
      x ∈ csvEntries true (stripStr (envv.getD [])) ∨
      x ∈ csvEntries true (argv.getD [])) ∧
    (∀ x, x ∈ parse_skip_urls envv argv ↔
      x ∈ csvEntries false (stripStr (envv.getD [])) ∨
      x ∈ csvEntries false (argv.getD [])) ∧
    (∀ x, x ∈ parse_skip_files envv argv ↔
      x ∈ csvEntries false (stripStr (envv.getD [])) ∨
      x ∈ csvEntries false (argv.getD [])) := by
  have hcsvnil : ∀ b : Bool, csvEntries b [] = [] := fun b => rfl
  have hskip : ∀ (low : Bool) (x : List Char),
      x ∈ (let s : List (List Char) := []
        let envp := stripStr (envv.getD [])
        let s := if !envp.isEmpty then setAddAll s (csvEntries low envp) else s
        match argv with
        | none => s
        | some a => if !a.isEmpty then setAddAll s (csvEntries low a) else s) ↔
      x ∈ csvEntries low (stripStr (envv.getD [])) ∨
      x ∈ csvEntries low (argv.getD []) := by
    intro low x
    by_cases he : (stripStr (envv.getD [])).isEmpty
    · have he2 : stripStr (envv.getD []) = [] := List.isEmpty_iff.mp he
      cases argv with
      | none => simp [he, he2, hcsvnil]
      | some a =>
        by_cases ha : a.isEmpty
        · have ha2 : a = [] := List.isEmpty_iff.mp ha
          simp [he, he2, ha, ha2, hcsvnil]
        · simp [he, he2, ha, hcsvnil, mem_setAddAll]
    · cases argv with
      | none => simp [he, hcsvnil, mem_setAddAll]
      | some a =>
        by_cases ha : a.isEmpty
        · have ha2 : a = [] := List.isEmpty_iff.mp ha
          simp [he, ha, ha2, hcsvnil, mem_setAddAll]
        · simp [he, ha, mem_setAddAll, or_assoc]
  refine ⟨?_, ?_, ?_, by decide, by decide, by decide, hskip true, hskip false,
    hskip false⟩
  · intro dflt a ha hna
    subst ha
    have hia : a.isEmpty = false := by simpa [List.isEmpty_iff] using hna
    simp [parse_patterns, hia]
  · intro dflt e ha he hne
    subst he
    have hie : (stripStr e).isEmpty = false := by
      simpa [List.isEmpty_iff] using hne
    rcases ha with ha | ha <;> subst ha <;> simp [parse_patterns, hie]
  · intro dflt ha he
    rcases ha with ha | ha <;> subst ha <;>
      simp [parse_patterns, he, List.isEmpty_iff.mpr he]

/-- C8 counterexample: the reporter prints the first five provenance
entries as stored, duplicates included — for a broken link whose provenance
is `[a.md, a.md]` the printed path list is `[a.md, a.md]`, which is not a
list of distinct paths — so "up to 5 distinct provenance file paths" fails
on the code. -/
theorem c8_counterexample :
    (print_results [(s2l "http://x.dev/", 0, s2l "URL Error: boom",
        [s2l "a.md", s2l "a.md"])] 1 3).1 =
      Report.failures [(s2l "http://x.dev/", s2l "URL Error: boom",
        [s2l "a.md", s2l "a.md"], 0)] ∧
    ¬ ([s2l "a.md", s2l "a.md"] : List (List Char)).Nodup ∧
    (print_results [(s2l "http://x.dev/", 0, s2l "URL Error: boom",
        [s2l "a.md", s2l "a.md"])] 1 3).2 = 1 := by
  refine ⟨by rfl, by decide, by rfl⟩

/-- C8 (amended): for each failed canonical URL the reporter prints its
status/detail followed by the first `min 5 n` provenance entries in stored
order — duplicates retained, so the shown paths need not be distinct — and,
when the provenance holds more than 5 entries, the count `n − 5` of the
remaining entries; the exit code is 0 iff the failure set is empty, and on
success the report states the number of unique URLs checked and the number
of files scanned. -/
theorem c8_report_shape
    (broken : List ((List Char) × Nat × (List Char) × List (List Char)))
    (tu tf : Nat) :
    ((print_results broken tu tf).2 = 0 ↔ broken = []) ∧
    (print_results broken tu tf).2 = (if broken = [] then 0 else 1) ∧
    (broken = [] → (print_results broken tu tf).1 = Report.success tu tf) ∧
    (broken ≠ [] → (print_results broken tu tf).1 =
      Report.failures (broken.map reportItem)) ∧
    (∀ e, (reportItem e).1 = e.1 ∧
      (reportItem e).2.1 = e.2.2.1 ∧
      (reportItem e).2.2.1 = e.2.2.2.take 5 ∧
      (reportItem e).2.2.1.length = min 5 e.2.2.2.length ∧
      (reportItem e).2.2.2 =
        (if 5 < e.2.2.2.length then e.2.2.2.length - 5 else 0)) := by
  have hexit : (print_results broken tu tf).2 = (if broken = [] then 0 else 1) := by
    by_cases hb : broken = []
    · simp [print_results, hb]
    · rw [print_results, if_neg (by simpa [List.isEmpty_iff] using hb)]
      simp [hb]
  refine ⟨?_, hexit, ?_, ?_, ?_⟩
  · rw [hexit]
    by_cases hb : broken = [] <;> simp [hb]
  · intro hb
    simp [print_results, hb]
  · intro hb
    rw [print_results, if_neg (by simpa [List.isEmpty_iff] using hb)]
  · intro e
    refine ⟨rfl, rfl, rfl, ?_, rfl⟩
    rw [reportItem]
    simp [List.length_take, Nat.min_comm]

/-! ### Scanner lemmas for the markdown extractor (claim C9) -/

theorem takeWhile_append_stop (p : Char → Bool) :
    ∀ (xs : List Char) (y : Char) (ys : List Char),
    (∀ x ∈ xs, p x = true) → p y = false →
    (xs ++ y :: ys).takeWhile p = xs
  | [], y, ys, _, hy => by simp [List.takeWhile_cons, hy]
  | x :: xs, y, ys, hall, hy => by
    rw [List.cons_append, List.takeWhile_cons,
      hall x (List.mem_cons_self x xs),
      takeWhile_append_stop p xs y ys
        (fun z hz => hall z (List.mem_cons_of_mem x hz)) hy]
    simp

theorem takeWhile_eq_take_length (p : Char → Bool) :
    ∀ l : List Char, l.take (l.takeWhile p).length = l.takeWhile p
  | [] => rfl
  | c :: l => by
    by_cases h : p c
    · rw [List.takeWhile_cons, if_pos h, List.length_cons, List.take_succ_cons,
        takeWhile_eq_take_length p l]
    · rw [List.takeWhile_cons, if_neg h]
      rfl

theorem mem_takeWhile_eq (p : Char → Bool) :
    ∀ (l : List Char) (x : Char), x ∈ l.takeWhile p → p x = true
  | [], x, h => by cases h
  | c :: l, x, h => by
    rw [List.takeWhile_cons] at h
    by_cases hc : p c
    · rw [if_pos hc] at h
      rcases List.mem_cons.mp h with rfl | h2
      · exact hc
      · exact mem_takeWhile_eq p l x h2
    · rw [if_neg hc] at h
      cases h

theorem isPrefixOf_self_append :
    ∀ (l r : List Char), l.isPrefixOf (l ++ r) = true
  | [], _ => by simp [List.isPrefixOf]
  | c :: l, r => by
    rw [List.cons_append]
    simp [List.isPrefixOf, isPrefixOf_self_append l r]

theorem scanAllAux_cons_some (f : List Char → Option (List Char × Nat))
    (fuel : Nat) (c : Char) (rest cap : List Char) (n : Nat)
    (hf : f (c :: rest) = some (cap, n)) :
    scanAllAux f (fuel + 1) (c :: rest) =
      cap :: scanAllAux f fuel ((c :: rest).drop (max n 1)) := by
  simp only [scanAllAux, hf]

theorem scanAllAux_cons_none (f : List Char → Option (List Char × Nat))
    (fuel : Nat) (c : Char) (rest : List Char) (hf : f (c :: rest) = none) :
    scanAllAux f (fuel + 1) (c :: rest) = scanAllAux f fuel rest := by
  simp only [scanAllAux, hf]

theorem scanAllAux_fuel (f : List Char → Option (List Char × Nat)) :
    ∀ (f1 f2 : Nat) (s : List Char), s.length ≤ f1 → s.length ≤ f2 →
    scanAllAux f f1 s = scanAllAux f f2 s
  | f1, f2, [], _, _ => by cases f1 <;> cases f2 <;> rfl
  | 0, _, _ :: _, h1, _ => absurd h1 (by simp)
  | _ + 1, 0, _ :: _, _, h2 => absurd h2 (by simp)
  | f1 + 1, f2 + 1, c :: rest, h1, h2 => by
    cases hf : f (c :: rest) with
    | none =>
      rw [scanAllAux_cons_none f f1 c rest hf,
        scanAllAux_cons_none f f2 c rest hf]
      exact scanAllAux_fuel f f1 f2 rest (Nat.le_of_succ_le_succ h1)
        (Nat.le_of_succ_le_succ h2)
    | some r =>
      obtain ⟨cap, n⟩ := r
      have hmax : 1 ≤ max n 1 := Nat.le_max_right n 1
      have hlen1 : ((c :: rest).drop (max n 1)).length ≤ f1 := by
        rw [List.length_drop]
        simp only [List.length_cons] at h1 ⊢
        omega
      have hlen2 : ((c :: rest).drop (max n 1)).length ≤ f2 := by
        rw [List.length_drop]
        simp only [List.length_cons] at h2 ⊢
        omega
      rw [scanAllAux_cons_some f f1 c rest cap n hf,
        scanAllAux_cons_some f f2 c rest cap n hf,
        scanAllAux_fuel f f1 f2 _ hlen1 hlen2]

theorem scanAll_head_some (f : List Char → Option (List Char × Nat))
    (s cap : List Char) (n : Nat) (h : f s = some (cap, n)) (hne : s ≠ []) :
    cap ∈ scanAll f s := by
  cases s with
  | nil => cases hne rfl
  | cons c rest =>
    rw [scanAll, List.length_cons, scanAllAux_cons_some f rest.length c rest cap n h]
    exact List.mem_cons_self _ _

theorem scanAll_cover (f : List Char → Option (List Char × Nat))
    (b : List Char) :
    ∀ (fuel : Nat) (a : List Char), (a ++ b).length ≤ fuel →
    (∀ i, i < a.length → ∀ cap n, f ((a ++ b).drop i) = some (cap, n) →
      i + max n 1 ≤ a.length) →
    ∃ X, scanAllAux f fuel (a ++ b) = X ++ scanAllAux f b.length b
  | fuel, [], h, _ =>
    ⟨[], scanAllAux_fuel f fuel b.length b (by simpa using h) (Nat.le_refl _)⟩
  | 0, c :: a2, h, _ => absurd h (by simp)
  | fuel + 1, c :: a2, h, hcov => by
    have hform : (c :: a2) ++ b = c :: (a2 ++ b) := rfl
    cases hf : f (c :: (a2 ++ b)) with
    | none =>
      have hcov2 : ∀ i, i < a2.length → ∀ cap n,
          f ((a2 ++ b).drop i) = some (cap, n) → i + max n 1 ≤ a2.length := by
        intro i hi cap n hm
        have h3 := hcov (i + 1) (by simp only [List.length_cons]; omega) cap n
          (by rw [hform, List.drop_succ_cons]; exact hm)
        simp only [List.length_cons] at h3
        omega
      obtain ⟨X, hX⟩ := scanAll_cover f b fuel a2
        (by simp only [List.length_append, List.length_cons] at h ⊢; omega)
        hcov2
      refine ⟨X, ?_⟩
      rw [hform, scanAllAux_cons_none f fuel c (a2 ++ b) hf, hX]
    | some r =>
      obtain ⟨cap, n⟩ := r
      have hm : max n 1 ≤ (c :: a2).length := by
        have h0 := hcov 0 (by simp) cap n (by rw [List.drop_zero, hform]; exact hf)
        omega
      have hdrop : (c :: (a2 ++ b)).drop (max n 1) =
          ((c :: a2).drop (max n 1)) ++ b := by
        rw [← hform, List.drop_append_eq_append_drop,
          Nat.sub_eq_zero_of_le hm, List.drop_zero]
      have hmax : 1 ≤ max n 1 := Nat.le_max_right n 1
      have hlen2 : (((c :: a2).drop (max n 1)) ++ b).length ≤ fuel := by
        rw [List.length_append, List.length_drop]
        simp only [List.length_append, List.length_cons] at h ⊢
        omega
      have hcov3 : ∀ i, i < ((c :: a2).drop (max n 1)).length → ∀ cap2 n2,
          f ((((c :: a2).drop (max n 1)) ++ b).drop i) = some (cap2, n2) →
          i + max n2 1 ≤ ((c :: a2).drop (max n 1)).length := by
        intro i hi cap2 n2 hm2
        rw [← hdrop, ← hform, List.drop_drop, Nat.add_comm] at hm2
        rw [List.length_drop] at hi
        have hlt : i + max n 1 < (c :: a2).length := by omega
        have h4 := hcov (i + max n 1) hlt cap2 n2 hm2
        rw [List.length_drop]
        omega
      obtain ⟨X, hX⟩ := scanAll_cover f b fuel ((c :: a2).drop (max n 1))
        hlen2 hcov3
      refine ⟨cap :: X, ?_⟩
      rw [hform, scanAllAux_cons_some f fuel c (a2 ++ b) cap n hf, hdrop, hX]
      rfl

theorem matchBare_unfold_https (rest : List Char) :
    matchBare (s2l "https://" ++ rest) =
      (if ((rest.takeWhile (fun c => !isBareStop c)).isEmpty) then none
       else some (s2l "https://" ++ rest.takeWhile (fun c => !isBareStop c),
         (s2l "https://").length +
           (rest.takeWhile (fun c => !isBareStop c)).length)) := by
  have h1 : (s2l "https://").isPrefixOf (s2l "https://" ++ rest) = true :=
    isPrefixOf_self_append _ _
  simp only [matchBare, h1, if_true, List.drop_left]
  by_cases hr : ((rest.takeWhile (fun c => !isBareStop c)).isEmpty)
  · have h2 : (s2l "http://").isPrefixOf (s2l "https://" ++ rest) = false := by
      simp [s2l, List.isPrefixOf]
    simp only [hr, if_true, h2, Bool.false_eq_true, if_false]
  · simp only [hr, Bool.false_eq_true, if_false]

theorem matchBare_unfold_http (rest : List Char) :
    matchBare (s2l "http://" ++ rest) =
      (if ((rest.takeWhile (fun c => !isBareStop c)).isEmpty) then none
       else some (s2l "http://" ++ rest.takeWhile (fun c => !isBareStop c),
         (s2l "http://").length +
           (rest.takeWhile (fun c => !isBareStop c)).length)) := by
  have h1 : (s2l "https://").isPrefixOf (s2l "http://" ++ rest) = false := by
    simp [s2l, List.isPrefixOf]
  have h2 : (s2l "http://").isPrefixOf (s2l "http://" ++ rest) = true :=
    isPrefixOf_self_append _ _
  simp only [matchBare, h1, h2, Bool.false_eq_true, if_false, if_true,
    List.drop_left]

theorem matchBare_branch (pre rest cap : List Char) (n : Nat)
    (hne : pre ≠ [])
    (hpre_ns : ∀ c ∈ pre, isBareStop c = false)
    (h : (if ((rest.takeWhile (fun c => !isBareStop c)).isEmpty) then none
          else some (pre ++ rest.takeWhile (fun c => !isBareStop c),
            pre.length + (rest.takeWhile (fun c => !isBareStop c)).length))
        = some (cap, n)) :
    cap = (pre ++ rest).take n ∧ n = cap.length ∧ 1 ≤ n ∧
      ∀ c ∈ cap, isBareStop c = false := by
  by_cases hr : ((rest.takeWhile (fun c => !isBareStop c)).isEmpty)
  · rw [if_pos hr] at h
    cases h
  · rw [if_neg hr] at h
    simp only [Option.some.injEq, Prod.mk.injEq] at h
    obtain ⟨hc, hn⟩ := h
    have htake : (pre ++ rest).take n = cap := by
      rw [← hn, ← hc, List.take_append_eq_append_take,
        List.take_of_length_le (by omega), Nat.add_sub_cancel_left,
        takeWhile_eq_take_length]
    refine ⟨htake.symm, by rw [← hc, ← hn, List.length_append], ?_, ?_⟩
    · have : 0 < pre.length := List.length_pos.mpr hne
      omega
    · intro c hcm
      rw [← hc] at hcm
      rcases List.mem_append.mp hcm with hcp | hcr
      · exact hpre_ns c hcp
      · have := mem_takeWhile_eq _ rest c hcr
        rw [Bool.not_eq_true'] at this
        exact this

theorem matchBare_chars (t cap : List Char) (n : Nat)
    (h : matchBare t = some (cap, n)) :
    cap = t.take n ∧ n = cap.length ∧ 1 ≤ n ∧
      ∀ c ∈ cap, isBareStop c = false := by
  by_cases h1 : (s2l "https://").isPrefixOf t = true
  · obtain ⟨rest, rfl⟩ := isPrefixOf_exists _ _ h1
    rw [matchBare_unfold_https] at h
    exact matchBare_branch _ rest cap n (by decide) (by decide) h
  · by_cases h2 : (s2l "http://").isPrefixOf t = true
    · obtain ⟨rest, rfl⟩ := isPrefixOf_exists _ _ h2
      rw [matchBare_unfold_http] at h
      exact matchBare_branch _ rest cap n (by decide) (by decide) h
    · rw [Bool.not_eq_true] at h1 h2
      simp only [matchBare, h1, h2, Bool.false_eq_true, if_false] at h
      cases h

theorem matchBare_scheme (pre tail : List Char)
    (hpre : pre = s2l "http://" ∨ pre = s2l "https://")
    (htail : tail ≠ []) (hns : ∀ c ∈ tail, isBareStop c = false) :
    matchBare ((pre ++ tail) ++ [')']) =
      some (pre ++ tail, (pre ++ tail).length) := by
  have hrun : (tail ++ [')']).takeWhile (fun c => !isBareStop c) = tail :=
    takeWhile_append_stop _ tail ')' []
      (fun x hx => by rw [hns x hx]; rfl) (by decide)
  have hie : tail.isEmpty = false := by simpa [List.isEmpty_iff] using htail
  rcases hpre with rfl | rfl
  · rw [List.append_assoc, matchBare_unfold_http, hrun, hie]
    simp [List.length_append]
  · rw [List.append_assoc, matchBare_unfold_https, hrun, hie]
    simp [List.length_append]

/-- The content shape of the inline-link claim: `[label](u)` as one string. -/
def inlineLinkContent (label u : List Char) : List Char :=
  '[' :: (label ++ (']' :: '(' :: (u ++ [')'])))

theorem matchInline_at (label u : List Char)
    (hlab : ∀ c ∈ label, c ≠ ']')
    (hu : u ≠ []) (hunp : ∀ c ∈ u, c ≠ ')') :
    matchInline (inlineLinkContent label u) =
      some (u, 1 + label.length + 2 + u.length + 1) := by
  have hlabtw :
      (label ++ (']' :: '(' :: (u ++ [')']))).takeWhile (fun x => x ≠ ']')
        = label :=
    takeWhile_append_stop _ label ']' _
      (fun x hx => decide_eq_true (hlab x hx)) (by decide)
  have hcaptw : (u ++ [')']).takeWhile (fun x => x ≠ ')') = u :=
    takeWhile_append_stop _ u ')' []
      (fun x hx => decide_eq_true (hunp x hx)) (by decide)
  have hie : u.isEmpty = false := by simpa [List.isEmpty_iff] using hu
  rw [inlineLinkContent]
  simp only [matchInline, if_pos rfl, hlabtw, List.drop_left, hcaptw, hie,
    Bool.false_eq_true, if_false]
  simp

/-- No bare-URL match starting inside the `[label](` prefix of an inline
link can reach past the closing `]` (a stop character), so the bare-URL
scan always re-synchronises at the link target. -/
theorem bare_cover_hyp (label u : List Char) :
    ∀ i, i < (('[' :: label) ++ [']', '(']).length → ∀ cap n,
      matchBare (((('[' :: label) ++ [']', '(']) ++ (u ++ [')'])).drop i) =
        some (cap, n) →
      i + max n 1 ≤ (('[' :: label) ++ [']', '(']).length := by
  intro i hi cap n hm
  obtain ⟨hcap, hn, hn1, hstop⟩ := matchBare_chars _ _ _ hm
  rw [Nat.max_eq_left hn1]
  by_contra hgt
  push_neg at hgt
  have hAlen : (('[' :: label) ++ [']', '(']).length = label.length + 3 := by
    simp
  rcases Nat.lt_or_ge i (label.length + 2) with hi2 | hi2
  · have hi3 : i ≤ ('[' :: label).length := by
      simp only [List.length_cons]
      omega
    have hdrop1 : ((('[' :: label) ++ [']', '(']) ++ (u ++ [')'])).drop i =
        (('[' :: label).drop i) ++ ([']', '('] ++ (u ++ [')'])) := by
      rw [List.append_assoc, List.drop_append_eq_append_drop,
        Nat.sub_eq_zero_of_le hi3, List.drop_zero]
    have hlen1 : (('[' :: label).drop i).length = label.length + 1 - i := by
      simp [List.length_drop]
    have hcap2 : cap = (('[' :: label).drop i) ++
        (([']', '('] ++ (u ++ [')'])).take (n - (label.length + 1 - i))) := by
      rw [hcap, hdrop1, List.take_append_eq_append_take,
        List.take_of_length_le (by rw [hlen1]; rw [hAlen] at hgt; omega),
        hlen1]
    have hmem : ']' ∈ cap := by
      rw [hcap2]
      apply List.mem_append_right
      rw [hAlen] at hgt
      cases hk : (n - (label.length + 1 - i)) with
      | zero => omega
      | succ m =>
        rw [show ([']', '('] ++ (u ++ [')'] ) : List Char) =
          ']' :: ('(' :: (u ++ [')'])) from rfl, List.take_succ_cons]
        exact List.mem_cons_self _ _
    have hfalse := hstop ']' hmem
    exact absurd hfalse (by decide)
  · have hieq : i = label.length + 2 := by
      rw [hAlen] at hi
      omega
    subst hieq
    have hstep1 : (('[' :: label) ++ [']', '(']).drop (label.length + 2) =
        (['('] : List Char) := by
      rw [List.drop_append_eq_append_drop,
        List.drop_eq_nil_of_le (by simp only [List.length_cons]; omega)]
      simp
    have hdrop2 :
        ((('[' :: label) ++ [']', '(']) ++ (u ++ [')'])).drop
          (label.length + 2) = '(' :: (u ++ [')']) := by
      rw [List.drop_append_eq_append_drop, hstep1,
        Nat.sub_eq_zero_of_le (by rw [hAlen]; omega), List.drop_zero]
      rfl
    rw [hdrop2] at hm
    have hnone : matchBare ('(' :: (u ++ [')'])) = none := by
      simp [matchBare, s2l, List.isPrefixOf]
    rw [hnone] at hm
    cases hm

/-- C9 (amended): for every label without `]` and every target
`u = scheme ++ tail` whose scheme is `http://` or `https://`, whose `tail`
is nonempty and free of bare-URL terminator characters, the markdown
extractor applied to the inline link `[label](u)` returns `u` at least
twice: once from the inline-link rule and once from the bare-URL rule.
(The original claim fails when `u` ends at the scheme, e.g. `http://`,
whose bare-URL rule demands a nonempty remainder after `://`.) -/
theorem c9_inline_also_bare (label pre tail : List Char)
    (hpre : pre = s2l "http://" ∨ pre = s2l "https://")
    (htail : tail ≠ [])
    (hlab : ∀ c ∈ label, c ≠ ']')
    (hns : ∀ c ∈ tail, isBareStop c = false) :
    (pre ++ tail) ∈ scanAll matchInline
      (inlineLinkContent label (pre ++ tail)) ∧
    (pre ++ tail) ∈ scanAll matchBare
      (inlineLinkContent label (pre ++ tail)) ∧
    2 ≤ List.count (pre ++ tail)
      (extract_from_markdown (inlineLinkContent label (pre ++ tail))) := by
  have hupre_ns : ∀ c ∈ pre, isBareStop c = false := by
    rcases hpre with rfl | rfl <;> decide
  have hu_ns : ∀ c ∈ pre ++ tail, isBareStop c = false := fun c hc =>
    (List.mem_append.mp hc).elim (hupre_ns c) (hns c)
  have hu_ne : pre ++ tail ≠ [] := by
    rcases hpre with rfl | rfl <;> simp [s2l]
  have hunp : ∀ c ∈ pre ++ tail, c ≠ ')' := by
    intro c hc heq
    have hb := hu_ns c hc
    rw [heq] at hb
    exact absurd hb (by decide)
  have hA : (pre ++ tail) ∈ scanAll matchInline
      (inlineLinkContent label (pre ++ tail)) :=
    scanAll_head_some _ _ _ _
      (matchInline_at label (pre ++ tail) hlab hu_ne hunp)
      (by rw [inlineLinkContent]; exact List.cons_ne_nil _ _)
  have hsplit : inlineLinkContent label (pre ++ tail) =
      (('[' :: label) ++ [']', '(']) ++ ((pre ++ tail) ++ [')']) := by
    simp [inlineLinkContent]
  obtain ⟨X, hX⟩ := scanAll_cover matchBare ((pre ++ tail) ++ [')'])
    (((('[' :: label) ++ [']', '(']) ++ ((pre ++ tail) ++ [')'])).length)
    (('[' :: label) ++ [']', '('])
    (Nat.le_refl _) (bare_cover_hyp label (pre ++ tail))
  have hb_mem : (pre ++ tail) ∈
      scanAllAux matchBare ((pre ++ tail) ++ [')']).length
        ((pre ++ tail) ++ [')']) := by
    have hmem := scanAll_head_some matchBare ((pre ++ tail) ++ [')'])
      (pre ++ tail) ((pre ++ tail).length)
      (matchBare_scheme pre tail hpre htail hns)
      (by simp [hu_ne])
    rw [scanAll] at hmem
    exact hmem
  have hB : (pre ++ tail) ∈ scanAll matchBare
      (inlineLinkContent label (pre ++ tail)) := by
    rw [scanAll, hsplit, hX]
    exact List.mem_append_right X hb_mem
  refine ⟨hA, hB, ?_⟩
  rw [extract_from_markdown, List.count_append, List.count_append]
  have hc1 : 0 < List.count (pre ++ tail)
      (scanAll matchInline (inlineLinkContent label (pre ++ tail))) :=
    List.count_pos_iff.mpr hA
  have hc3 : 0 < List.count (pre ++ tail)
      (scanAll matchBare (inlineLinkContent label (pre ++ tail))) :=
    List.count_pos_iff.mpr hB
  omega

theorem c9_witness :
    ((s2l "https://") = s2l "http://" ∨ (s2l "https://") = s2l "https://") ∧
    (s2l "x.dev/y" ≠ ([] : List Char)) ∧
    (∀ c ∈ s2l "doc", c ≠ ']') ∧
    (∀ c ∈ s2l "x.dev/y", isBareStop c = false) ∧
    2 ≤ List.count (s2l "https://" ++ s2l "x.dev/y")
      (extract_from_markdown
        (inlineLinkContent (s2l "doc") (s2l "https://" ++ s2l "x.dev/y"))) :=
  ⟨Or.inr rfl, by decide, by decide, by decide,
    (c9_inline_also_bare (s2l "doc") (s2l "https://") (s2l "x.dev/y")
      (Or.inr rfl) (by decide) (by decide) (by decide)).2.2⟩

/-- C9 counterexample: the content `[a](http://)` holds an inline link whose
target `http://` begins with `http://` and contains no bare-URL terminator
character, yet the markdown extractor returns it exactly once (the bare-URL
rule requires at least one character after the scheme), not at least
twice. -/
theorem c9_counterexample :
    (s2l "http://").isPrefixOf (s2l "http://") = true ∧
    (∀ c ∈ s2l "http://", isBareStop c = false) ∧
    List.count (s2l "http://")
      (extract_from_markdown (s2l "[a](http://)")) = 1 ∧
    ¬ (2 ≤ List.count (s2l "http://")
      (extract_from_markdown (s2l "[a](http://)"))) := by
  refine ⟨by decide, by decide, by decide, by decide⟩

end CheckUrls
